import Mathlib

/-!
Verification of the knowledge-retrieval subsystem of the repository
(parsers / chunkers / embedders / FAISS vector store / offline processor /
online retriever).

The Python sources are shallowly embedded here:
  - `src/knowledge/vector_store/faiss_store.py`  -> `FaissVectorStore` and its
    operations (`addDocumentsRun`, `searchStore`, `save`, `load`);
  - `src/knowledge/chunkers/fixed_size_chunker.py` -> `fixedWindows`, `fixedChunk`;
  - `src/knowledge/chunkers/semantic_chunker.py`  -> `splitParagraphs`,
    `splitSentences`, `semanticChunk`;
  - `src/knowledge/embeddings.py`                -> `SimpleEmbedder`,
    `APIEmbedder`, `HybridEmbedder`;
  - `src/knowledge/offline_processor.py`          -> `processDirectory`;
  - `src/knowledge/online_retriever.py`           -> `OnlineRetriever.search`.

Numeric vectors are modelled over `ℚ` (the properties proved are structural:
counts, ordering, alignment, monotonicity of the distance-to-similarity map,
none of which depend on floating-point rounding).  Python strings are either
kept opaque (`String`, where only equality matters) or modelled as `List Char`
(where slicing and trimming matter).  Exceptions are modelled with
`Except String`; where an operation mutates state before it can raise, the
embedding returns the post-state next to the optional error message so that
"state unchanged on failure" is expressible.
-/

deriving instance DecidableEq for Except

namespace Agent

/-- Squared L2 distance between two rational vectors.  FAISS `IndexFlatL2`
reports exactly this quantity (the squared euclidean distance) as its
`distances` output. -/
def sqDist (q v : List ℚ) : ℚ :=
  (List.zipWith (fun a b => (a - b) ^ 2) q v).sum

/-- Comparison used to model the FAISS result order: ascending distance.
The pair is `(stored index, distance)`. -/
def distLe (a b : Nat × ℚ) : Prop := a.2 ≤ b.2

instance : DecidableRel distLe := fun a b => inferInstanceAs (Decidable (a.2 ≤ b.2))

instance : IsTotal (Nat × ℚ) distLe := ⟨fun a b => le_total a.2 b.2⟩

instance : IsTrans (Nat × ℚ) distLe := ⟨fun _ _ _ h1 h2 => le_trans h1 h2⟩

/-- State of `FaissVectorStore` (faiss_store.py).  `indexDim = none` models
`self.index is None`; `indexDim = some d` models a created `IndexFlatL2(d)`
whose stored vectors (in insertion order) are `vectors`.  `dimension` mirrors
the separate `self.dimension` attribute. -/
structure FaissVectorStore where
  dimension : Option Nat
  indexDim : Option Nat
  vectors : List (List ℚ)
  documents : List String
deriving Repr, DecidableEq

/-- `FaissVectorStore.__init__(dimension)`: the index is created exactly when a
dimension is passed. -/
def FaissVectorStore.init (dimension : Option Nat) : FaissVectorStore :=
  { dimension := dimension, indexDim := dimension, vectors := [], documents := [] }

/-- `FaissVectorStore.add_documents(embeddings, documents)`.
`embeddings` is a numpy array of shape `(n, embCols)`; we carry the row list
and the column count of that shape separately (callers guarantee the rows are
rectangular of width `embCols`).  The result is the pair
`(raised error message?, state of the store after the call)` - Python mutates
`self` in place, so on an exception the fields mutated before the raise stay
mutated.  Steps, in source order: create the index from `shape[1]` if absent;
raise on row/text count mismatch; `self.index.add` (FAISS asserts that the
array width equals the index dimension) and only then extend `documents`. -/
def addDocumentsRun (s : FaissVectorStore) (embeddings : List (List ℚ))
    (embCols : Nat) (documents : List String) :
    Option String × FaissVectorStore :=
  let s1 := if s.indexDim = none then { s with indexDim := some embCols } else s
  if embeddings.length ≠ documents.length then
    (some "向量数量和文档数量不匹配", s1)
  else
    match s1.indexDim with
    | none => (none, s1)
    | some d =>
      if embCols = d then
        (none, { s1 with vectors := s1.vectors ++ embeddings,
                         documents := s1.documents ++ documents })
      else (some "faiss AssertionError: d == self.d", s1)

/-- `FaissVectorStore.search(query_embedding, top_k)`.  Mirrors the source:
empty / absent index returns `[]` before anything else; FAISS then asserts the
query width against the index dimension; `top_k` is clamped to the corpus
size; FAISS exact search returns the `top_k` nearest stored vectors by
ascending squared-L2 distance (modelled as a sort of all scored indices);
each hit with a valid index is converted to `(text, 1 / (1 + distance))`. -/
def searchStore (s : FaissVectorStore) (q : List ℚ) (topK : Nat) :
    Except String (List (String × ℚ)) :=
  match s.indexDim with
  | none => .ok []
  | some d =>
    if s.documents.length = 0 then .ok []
    else if q.length ≠ d then .error "faiss AssertionError: d == self.d"
    else
      let k := min topK s.documents.length
      let scored := s.vectors.enum.map (fun p => (p.1, sqDist q p.2))
      let top := (List.insertionSort distLe scored).take k
      .ok (top.filterMap (fun p =>
        if h : p.1 < s.documents.length then
          some (s.documents.get ⟨p.1, h⟩, 1 / (1 + p.2))
        else none))

/-- Contents of one persisted file: either a serialized FAISS index (written
by `faiss.write_index`) or a pickled document list. -/
inductive FileData where
  | indexFile (d : Nat) (vectors : List (List ℚ))
  | docsFile (documents : List String)
deriving Repr, DecidableEq

/-- The file system visible to `save` / `load`: path to contents. -/
def FileSystem := String → Option FileData

/-- `FaissVectorStore.save(index_path, documents_path)`: raises if no index
exists, otherwise writes the index file then the documents file. -/
def save (s : FaissVectorStore) (fs : FileSystem) (indexPath docsPath : String) :
    Except String FileSystem :=
  match s.indexDim with
  | none => .error "没有索引可以保存"
  | some d =>
    let fs1 : FileSystem :=
      fun p => if p = indexPath then some (.indexFile d s.vectors) else fs p
    let fs2 : FileSystem :=
      fun p => if p = docsPath then some (.docsFile s.documents) else fs1 p
    .ok fs2

/-- `FaissVectorStore.load(index_path, documents_path)`: missing files raise
`FileNotFoundError`; `faiss.read_index` fails on a file that is not a FAISS
index, and `pickle.load` fails on a file that is not a pickle; on success the
store holds the loaded index (whose `d` becomes `self.dimension`) and the
loaded document list. -/
def load (s : FaissVectorStore) (fs : FileSystem) (indexPath docsPath : String) :
    Except String FaissVectorStore :=
  match fs indexPath with
  | none => .error "索引文件不存在"
  | some (.docsFile _) => .error "faiss read_index failed"
  | some (.indexFile d vecs) =>
    match fs docsPath with
    | none => .error "文档文件不存在"
    | some (.indexFile _ _) => .error "pickle load failed"
    | some (.docsFile docs) =>
      .ok { s with dimension := some d, indexDim := some d,
                   vectors := vecs, documents := docs }

/-- Python `str.strip()` on a character list: whitespace removed from both
ends. -/
def pyStrip (l : List Char) : List Char :=
  ((l.dropWhile Char.isWhitespace).reverse.dropWhile Char.isWhitespace).reverse

/-- One iteration of the start-position update in `FixedSizeChunker.chunk`:
`start += chunk_size - chunk_overlap`, then the infinite-loop guard
`if start <= end - chunk_size + chunk_overlap: start = end` (the comparison is
Python integer arithmetic, hence on `Int`). -/
def nextStart (chunkSize chunkOverlap L start : Nat) : Nat :=
  if ((start + chunkSize - chunkOverlap : Nat) : Int)
      ≤ ((min (start + chunkSize) L : Nat) : Int) - chunkSize + chunkOverlap
  then min (start + chunkSize) L
  else start + chunkSize - chunkOverlap

/-- The `(start, end)` windows scanned by the `while start < text_len` loop of
`FixedSizeChunker.chunk`.  The loop has no structural decreasing argument, so
the embedding carries explicit fuel; with the constructor-validated
parameters (`0 < chunk_size`, `chunk_overlap < chunk_size`) the start
position strictly increases, so fuel `L` is always enough (proved below as
the termination half of the coverage theorem). -/
def fixedWindows (chunkSize chunkOverlap L : Nat) : Nat → Nat → List (Nat × Nat)
  | 0, _ => []
  | fuel + 1, start =>
    if start < L then
      (start, min (start + chunkSize) L) ::
        fixedWindows chunkSize chunkOverlap L fuel
          (nextStart chunkSize chunkOverlap L start)
    else []

/-- `FixedSizeChunker.chunk(text)`: empty or whitespace-only text yields `[]`;
otherwise every scanned window is sliced out of the text
(`text[start:end]`), stripped, and dropped when empty. -/
def fixedChunk (chunkSize chunkOverlap : Nat) (text : List Char) :
    List (List Char) :=
  if pyStrip text = [] then []
  else ((fixedWindows chunkSize chunkOverlap text.length text.length 0).map
    (fun w => pyStrip ((text.drop w.1).take (w.2 - w.1)))).filter
      (fun c => c ≠ [])

/-- `FixedSizeChunker.__init__` validation: `chunk_size` positive,
`chunk_overlap` nonnegative (automatic for `Nat`) and smaller than
`chunk_size`. -/
def mkFixedSizeChunker (chunkSize chunkOverlap : Nat) :
    Except String (Nat × Nat) :=
  if chunkSize = 0 then .error "chunk_size必须为正数"
  else if chunkSize ≤ chunkOverlap then .error "chunk_overlap必须小于chunk_size"
  else .ok (chunkSize, chunkOverlap)

/-- Scanner state for the paragraph splitter modelling
`re.split` of the two-newline pattern: `plain` is ordinary piece text; `cand buf` has
seen a newline followed only by non-newline whitespace (`buf`, which still
belongs to the piece if no second newline arrives); `insep tent` is inside a
confirmed separator whose trailing whitespace `tent` (no newline yet) will
belong to the next piece - the greedy `\s*` with its final backtracked `\n`
means the separator ends at the last newline of the whitespace run. -/
inductive PMode where
  | plain
  | cand (buf : List Char)
  | insep (tent : List Char)

/-- Single left-to-right pass implementing `re.split` of the two-newline pattern. -/
def paraSplitGo : List Char → PMode → List Char → List (List Char) →
    List (List Char)
  | [], .plain, piece, acc => acc ++ [piece]
  | [], .cand buf, piece, acc => acc ++ [piece ++ buf]
  | [], .insep tent, _piece, acc => acc ++ [tent]
  | c :: rest, .plain, piece, acc =>
    if c = '\n' then paraSplitGo rest (.cand ['\n']) piece acc
    else paraSplitGo rest .plain (piece ++ [c]) acc
  | c :: rest, .cand buf, piece, acc =>
    if c = '\n' then paraSplitGo rest (.insep []) [] (acc ++ [piece])
    else if c.isWhitespace then paraSplitGo rest (.cand (buf ++ [c])) piece acc
    else paraSplitGo rest .plain (piece ++ buf ++ [c]) acc
  | c :: rest, .insep tent, piece, acc =>
    if c = '\n' then paraSplitGo rest (.insep []) piece acc
    else if c.isWhitespace then paraSplitGo rest (.insep (tent ++ [c])) piece acc
    else paraSplitGo rest .plain (tent ++ [c]) acc

/-- `re.split` of the two-newline pattern of `SemanticChunker.chunk`. -/
def splitParagraphs (text : List Char) : List (List Char) :=
  paraSplitGo text .plain [] []

/-- Terminal punctuation of `SemanticChunker._split_sentences`
(`[。！？\.!?]`). -/
def sentTerm (c : Char) : Bool :=
  c == '。' || c == '！' || c == '？' || c == '.' || c == '!' || c == '?'

/-- Scanner state for the sentence splitter modelling
`re.split` of the captured terminator-run pattern: collecting a piece, collecting
the terminator run of a separator, or collecting the trailing whitespace of a
separator. -/
inductive SMode where
  | piece
  | runm
  | wsm

/-- Single pass producing the alternating `[piece, sep, piece, sep, ...,
piece]` list that `re.split` with one capture group returns. -/
def sentGo : List Char → SMode → List Char → List (List Char) →
    List (List Char)
  | [], .piece, cur, acc => acc ++ [cur]
  | [], .runm, cur, acc => acc ++ [cur, []]
  | [], .wsm, cur, acc => acc ++ [cur, []]
  | c :: rest, .piece, cur, acc =>
    if sentTerm c then sentGo rest .runm [c] (acc ++ [cur])
    else sentGo rest .piece (cur ++ [c]) acc
  | c :: rest, .runm, cur, acc =>
    if sentTerm c then sentGo rest .runm (cur ++ [c]) acc
    else if c.isWhitespace then sentGo rest .wsm (cur ++ [c]) acc
    else sentGo rest .piece [c] (acc ++ [cur])
  | c :: rest, .wsm, cur, acc =>
    if sentTerm c then sentGo rest .runm [c] (acc ++ [cur, []])
    else if c.isWhitespace then sentGo rest .wsm (cur ++ [c]) acc
    else sentGo rest .piece [c] (acc ++ [cur])

/-- The recombination loop of `_split_sentences`: pairs each piece with its
following separator (`range(0, len - 1, 2)` plus the odd trailing element). -/
def pairUp : List (List Char) → List (List Char)
  | [] => []
  | [x] => [x]
  | x :: y :: rest => (x ++ y) :: pairUp rest

/-- `SemanticChunker._split_sentences(text)`: split, recombine piece with
separator, drop blank entries (`if s.strip()`). -/
def splitSentences (text : List Char) : List (List Char) :=
  (pairUp (sentGo text .piece [] [])).filter (fun s => pyStrip s ≠ [])

/-- The literal `"\n\n"` that `SemanticChunker` inserts between merged
paragraphs. -/
def nl2 : List Char := ['\n', '\n']

/-- One iteration of the sentence re-accumulation loop in
`SemanticChunker.chunk` (state: emitted chunks, `temp_chunk`). -/
def sentenceFlushStep (maxS : Nat) (st : List (List Char) × List Char)
    (sent : List Char) : List (List Char) × List Char :=
  if st.2.length + sent.length ≤ maxS then (st.1, st.2 ++ sent)
  else if st.2 = [] then (st.1, sent)
  else (st.1 ++ [pyStrip st.2], sent)

/-- One iteration of the paragraph loop in `SemanticChunker.chunk`
(state: emitted chunks, `current_chunk`). -/
def semStep (maxS minS : Nat) (st : List (List Char) × List Char)
    (para0 : List Char) : List (List Char) × List Char :=
  let para := pyStrip para0
  if para = [] then st
  else if st.2.length + para.length + 2 ≤ maxS then
    (st.1, if st.2 = [] then para else st.2 ++ nl2 ++ para)
  else
    let st1 :=
      if minS ≤ st.2.length then (st.1 ++ [st.2], para)
      else if st.2 = [] then (st.1, para)
      else (st.1, st.2 ++ nl2 ++ para)
    if maxS < st1.2.length then
      (splitSentences st1.2).foldl (sentenceFlushStep maxS) (st1.1, [])
    else st1

/-- The trailing-buffer handling at the end of `SemanticChunker.chunk`. -/
def semFinal (minS : Nat) (st : List (List Char) × List Char) :
    List (List Char) :=
  if st.2 = [] then st.1
  else if minS ≤ st.2.length then st.1 ++ [st.2]
  else if st.1 = [] then [st.2]
  else st.1.dropLast ++ [st.1.getLastD [] ++ nl2 ++ st.2]

/-- `SemanticChunker.chunk(text)`. -/
def semanticChunk (maxS minS : Nat) (text : List Char) : List (List Char) :=
  if pyStrip text = [] then []
  else semFinal minS ((splitParagraphs text).foldl (semStep maxS minS) ([], []))

/-- Provenance of an emitted semantic chunk: flushed by the paragraph loop
(`chunks.append(current_chunk)`), flushed by the sentence loop
(`chunks.append(temp_chunk.strip())`), kept as the final buffer, produced by
merging the final short buffer into the previous chunk, or kept as the sole
short chunk. -/
inductive ChunkTag where
  | paraFlush
  | sentFlush
  | finalKeep
  | finalMerged
  | finalSolo
deriving Repr, DecidableEq

/-- `sentenceFlushStep` with provenance tags. -/
def sentenceFlushStepT (maxS : Nat)
    (st : List (ChunkTag × List Char) × List Char) (sent : List Char) :
    List (ChunkTag × List Char) × List Char :=
  if st.2.length + sent.length ≤ maxS then (st.1, st.2 ++ sent)
  else if st.2 = [] then (st.1, sent)
  else (st.1 ++ [(ChunkTag.sentFlush, pyStrip st.2)], sent)

/-- `semStep` with provenance tags. -/
def semStepT (maxS minS : Nat) (st : List (ChunkTag × List Char) × List Char)
    (para0 : List Char) : List (ChunkTag × List Char) × List Char :=
  let para := pyStrip para0
  if para = [] then st
  else if st.2.length + para.length + 2 ≤ maxS then
    (st.1, if st.2 = [] then para else st.2 ++ nl2 ++ para)
  else
    let st1 :=
      if minS ≤ st.2.length then (st.1 ++ [(ChunkTag.paraFlush, st.2)], para)
      else if st.2 = [] then (st.1, para)
      else (st.1, st.2 ++ nl2 ++ para)
    if maxS < st1.2.length then
      (splitSentences st1.2).foldl (sentenceFlushStepT maxS) (st1.1, [])
    else st1

/-- `semFinal` with provenance tags. -/
def semFinalT (minS : Nat) (st : List (ChunkTag × List Char) × List Char) :
    List (ChunkTag × List Char) :=
  if st.2 = [] then st.1
  else if minS ≤ st.2.length then st.1 ++ [(ChunkTag.finalKeep, st.2)]
  else if st.1 = [] then [(ChunkTag.finalSolo, st.2)]
  else st.1.dropLast ++
    [(ChunkTag.finalMerged,
      (st.1.getLastD (ChunkTag.finalKeep, [])).2 ++ nl2 ++ st.2)]

/-- `semanticChunk` with provenance tags; erasing the tags gives back
`semanticChunk` (proved below). -/
def semanticChunkT (maxS minS : Nat) (text : List Char) :
    List (ChunkTag × List Char) :=
  if pyStrip text = [] then []
  else semFinalT minS
    ((splitParagraphs text).foldl (semStepT maxS minS) ([], []))

/-- Split a character list on spaces (single pass, accumulator reversed). -/
def wordsGo : List Char → List Char → List (List Char)
  | [], cur => [cur.reverse]
  | c :: rest, cur =>
    if c = ' ' then cur.reverse :: wordsGo rest []
    else wordsGo rest (c :: cur)

/-- Tokenizer modelling scikit-learn `TfidfVectorizer` at the interface
level (whitespace word split; the exact token pattern does not matter for the
shape and lifecycle properties proved here). -/
def tokenize (t : String) : List String :=
  ((wordsGo t.data []).map (fun w => String.mk w)).filter (fun w => w ≠ "")

/-- Adjacent-word bigrams (`ngram_range=(1, 2)`). -/
def bigrams : List String → List String
  | a :: b :: rest => (a ++ " " ++ b) :: bigrams (b :: rest)
  | _ => []

/-- Fitted vocabulary: unigrams and bigrams of the corpus, truncated to
`max_features`. -/
def buildVocab (maxFeatures : Nat) (corpus : List String) : List String :=
  ((corpus.map tokenize).flatten ++
    (corpus.map (fun t => bigrams (tokenize t))).flatten).dedup.take maxFeatures

/-- `vectorizer.transform(texts).toarray()`: one row per text, one column per
vocabulary entry (term counts stand in for the tf-idf weights; only the shape
matters for the proved properties). -/
def transform (vocab : List String) (texts : List String) : List (List ℚ) :=
  texts.map (fun t =>
    vocab.map (fun w => ((tokenize t ++ bigrams (tokenize t)).count w : ℚ)))

/-- `SimpleEmbedder` (embeddings.py): a trainable tf-idf embedder with a
`fitted` flag. -/
structure SimpleEmbedder where
  maxFeatures : Nat
  fitted : Bool
  vocab : List String
deriving Repr, DecidableEq

/-- `SimpleEmbedder.__init__(max_features)`. -/
def SimpleEmbedder.mk0 (maxFeatures : Nat) : SimpleEmbedder :=
  { maxFeatures := maxFeatures, fitted := false, vocab := [] }

/-- `SimpleEmbedder.fit(corpus)`: raises on an empty corpus, otherwise fits
the vectorizer and sets the flag. -/
def SimpleEmbedder.fit (e : SimpleEmbedder) (corpus : List String) :
    Except String SimpleEmbedder :=
  if corpus = [] then .error "语料库不能为空"
  else .ok { e with fitted := true, vocab := buildVocab e.maxFeatures corpus }

/-- The `isinstance(texts, str)` normalisation shared by every embedder:
a single string becomes a one-element batch. -/
def normalizeInput : String ⊕ List String → List String
  | .inl s => [s]
  | .inr l => l

/-- `SimpleEmbedder.embed(texts)`: hard error when unfit, otherwise the
transformed matrix. -/
def SimpleEmbedder.embed (e : SimpleEmbedder) (texts : String ⊕ List String) :
    Except String (List (List ℚ)) :=
  if e.fitted = false then .error "向量化器未训练，请先调用 fit() 方法"
  else .ok (transform e.vocab (normalizeInput texts))

/-- `APIEmbedder` (embeddings.py): the remote service is a black box taking
the normalised batch and returning either the vectors or a transport or API
failure. -/
structure APIEmbedder where
  apiKey : String
  respond : List String → Except String (List (List ℚ))

/-- `APIEmbedder.embed(texts)`: any exception from the call is re-raised as a
`RuntimeError`. -/
def APIEmbedder.embed (a : APIEmbedder) (texts : String ⊕ List String) :
    Except String (List (List ℚ)) :=
  match a.respond (normalizeInput texts) with
  | .ok r => .ok r
  | .error e => .error ("API调用失败: " ++ e)

/-- `HybridEmbedder` (embeddings.py): optional remote embedder (absent when
construction failed) plus the always-present local one. -/
structure HybridEmbedder where
  api : Option APIEmbedder
  simple : SimpleEmbedder

/-- `HybridEmbedder.fit(corpus)` trains only the local embedder. -/
def HybridEmbedder.fit (h : HybridEmbedder) (corpus : List String) :
    Except String HybridEmbedder :=
  match h.simple.fit corpus with
  | .ok s => .ok { h with simple := s }
  | .error e => .error e

/-- `HybridEmbedder.embed(texts)`: try the remote embedder, fall back to the
local one on any failure (or when no remote embedder exists). -/
def HybridEmbedder.embed (h : HybridEmbedder) (texts : String ⊕ List String) :
    Except String (List (List ℚ)) :=
  match h.api with
  | some a =>
    match a.embed texts with
    | .ok r => .ok r
    | .error _ => h.simple.embed texts
  | none => h.simple.embed texts

/-- The metadata dict attached to each chunk by
`OfflineProcessor.process_directory`. -/
structure ChunkMeta where
  source_file : String
  file_path : String
  chunk_index : Nat
deriving Repr, DecidableEq

/-- One input file as the offline loop sees it: its path, its basename
(`os.path.basename(file_path)`) and the text produced for it by
`ParserFactory.parse_document` (the parser itself is outside this loop;
an empty string models a parse failure). -/
structure SourceFile where
  path : String
  name : String
  text : String
deriving Repr, DecidableEq

/-- The `for chunk in chunks` body: append the chunk, then append metadata
whose `chunk_index` is `len(all_chunks) - 1` after the append, i.e. the
global running index. -/
def appendChunk (f : SourceFile) (st : List String × List ChunkMeta)
    (c : String) : List String × List ChunkMeta :=
  (st.1 ++ [c],
   st.2 ++ [{ source_file := f.name, file_path := f.path,
              chunk_index := st.1.length }])

/-- The per-file body of `OfflineProcessor.process_directory`: skip files
with empty parse results or empty chunk lists, otherwise append all chunks
with their metadata. -/
def processFileStep (chunker : String → List String)
    (st : List String × List ChunkMeta) (f : SourceFile) :
    List String × List ChunkMeta :=
  if f.text = "" then st
  else
    let cs := chunker f.text
    if cs = [] then st
    else cs.foldl (appendChunk f) st

/-- The scan loop of `OfflineProcessor.process_directory`, accumulating
`all_chunks` and `all_metadata` over the (sorted) file list. -/
def processDirectory (chunker : String → List String)
    (files : List SourceFile) : List String × List ChunkMeta :=
  files.foldl (processFileStep chunker) ([], [])

/-- One entry of the result list built by `OnlineRetriever.search`. -/
structure SearchResult where
  document : String
  score : ℚ
  metadata : Option ChunkMeta
deriving Repr, DecidableEq

/-- `OnlineRetriever` after `_load_index`: the loaded store, the loaded
metadata list and the (default, `simple`) embedder fitted on the loaded
documents. -/
structure OnlineRetriever where
  vector_store : FaissVectorStore
  metadata : List ChunkMeta
  embedder : SimpleEmbedder
deriving Repr, DecidableEq

/-- `OnlineRetriever.search(query, top_k, return_metadata)`: an empty or
whitespace-only query returns `[]` before the embedder or the index is
touched; otherwise the query is embedded (shape `(1, d)`; its single row is
what FAISS consumes), the store is searched, and metadata is reattached by
`self.vector_store.documents.index(doc)` - content equality, i.e. the first
occurrence of an equal text - guarded by `doc_idx < len(self.metadata)`. -/
def OnlineRetriever.search (r : OnlineRetriever) (query : String)
    (topK : Nat) (returnMetadata : Bool) : Except String (List SearchResult) :=
  if pyStrip query.toList = [] then .ok []
  else
    match r.embedder.embed (.inl query) with
    | .error e => .error e
    | .ok qemb =>
      match searchStore r.vector_store (qemb.headD []) topK with
      | .error e => .error e
      | .ok raw =>
        .ok (raw.map (fun p =>
          { document := p.1, score := p.2,
            metadata :=
              if returnMetadata = true ∧ r.metadata ≠ [] then
                if h : List.indexOf p.1 r.vector_store.documents
                    < r.metadata.length then
                  some (r.metadata.get
                    ⟨List.indexOf p.1 r.vector_store.documents, h⟩)
                else none
              else none }))

end Agent

namespace Agent

/-- The squared-L2 distance is nonnegative. -/
lemma sqDist_nonneg (q v : List ℚ) : 0 ≤ sqDist q v := by
  induction q generalizing v with
  | nil => cases v <;> simp [sqDist]
  | cons a q ih =>
    cases v with
    | nil => simp [sqDist]
    | cons b v =>
      have h : (0 : ℚ) ≤ sqDist q v := ih v
      simp only [sqDist, List.zipWith_cons_cons, List.sum_cons]
      have h2 : (0 : ℚ) ≤ (a - b) ^ 2 := sq_nonneg _
      simp only [sqDist] at h
      linarith

/-- A `filterMap` whose function succeeds on every element keeps the length. -/
lemma length_filterMap_all {α β : Type} (f : α → Option β) (l : List α)
    (h : ∀ a ∈ l, (f a).isSome) : (l.filterMap f).length = l.length := by
  induction l with
  | nil => rfl
  | cons a t ih =>
    have ha := h a (by simp)
    rw [List.filterMap_cons]
    cases hfa : f a with
    | none => rw [hfa] at ha; simp at ha
    | some b => simp only [List.length_cons, ih fun x hx => h x (by simp [hx])]

/-- A pairwise property survives `filterMap` when the function transports it. -/
lemma pairwise_filterMap_of_pairwise {α β : Type} {R : α → α → Prop}
    {S : β → β → Prop} (f : α → Option β) (l : List α) (hl : List.Pairwise R l)
    (hf : ∀ a b, R a b → ∀ x, f a = some x → ∀ y, f b = some y → S x y) :
    List.Pairwise S (l.filterMap f) := by
  induction l with
  | nil => exact List.Pairwise.nil
  | cons a t ih =>
    rcases List.pairwise_cons.1 hl with ⟨hab, ht⟩
    rw [List.filterMap_cons]
    cases hfa : f a with
    | none => exact ih ht
    | some x =>
      refine List.pairwise_cons.2 ⟨?_, ih ht⟩
      intro y hy
      rcases List.mem_filterMap.1 hy with ⟨b, hb, hfb⟩
      exact hf a b (hab b hb) x hfa y hfb

/-- Entries of the scored index-distance list of `searchStore`. -/
lemma mem_scored (q : List ℚ) (vs : List (List ℚ)) (p : Nat × ℚ)
    (hp : p ∈ vs.enum.map (fun e => (e.1, sqDist q e.2))) :
    ∃ hv : p.1 < vs.length, p.2 = sqDist q (vs.get ⟨p.1, hv⟩) := by
  rcases List.mem_map.1 hp with ⟨e, he, hpe⟩
  have h2 : vs[e.1]? = some e.2 := List.mem_enum_iff_getElem?.1 he
  rcases List.getElem?_eq_some.1 h2 with ⟨hlt, hget⟩
  subst hpe
  exact ⟨hlt, by simp [List.get_eq_getElem, hget]⟩

/-- Core facts about `searchStore` on a created index with a query of the
index dimension: it succeeds, returns exactly `min k n` results, each result
is a stored document paired with `1 / (1 + squared distance)` of its stored
vector against the query, and the results are sorted by descending
similarity. -/
lemma searchStore_props (s : FaissVectorStore) (d : Nat) (q : List ℚ) (k : Nat)
    (hidx : s.indexDim = some d)
    (hlen : s.vectors.length = s.documents.length)
    (hq : q.length = d) :
    ∃ res, searchStore s q k = .ok res ∧
      res.length = min k s.documents.length ∧
      (∀ r ∈ res, ∃ i, ∃ hdoc : i < s.documents.length,
        ∃ hvec : i < s.vectors.length,
        r.1 = s.documents.get ⟨i, hdoc⟩ ∧
        r.2 = 1 / (1 + sqDist q (s.vectors.get ⟨i, hvec⟩))) ∧
      res.Pairwise (fun a b => b.2 ≤ a.2) := by
  by_cases hD : s.documents.length = 0
  · refine ⟨[], ?_, ?_, ?_, ?_⟩
    · simp [searchStore, hidx, hD]
    · simp [hD]
    · simp
    · simp
  · have hq2 : ¬ q.length ≠ d := by simp [hq]
    have hrun : searchStore s q k =
        .ok (((List.insertionSort distLe
          (s.vectors.enum.map (fun e => (e.1, sqDist q e.2)))).take
            (min k s.documents.length)).filterMap (fun p =>
          if h : p.1 < s.documents.length then
            some (s.documents.get ⟨p.1, h⟩, 1 / (1 + p.2))
          else none)) := by
      simp only [searchStore, hidx, if_neg hD, if_neg hq2]
    refine ⟨_, hrun, ?_, ?_, ?_⟩
    · -- length
      have hvalid : ∀ p ∈ (List.insertionSort distLe
          (s.vectors.enum.map (fun e => (e.1, sqDist q e.2)))).take
            (min k s.documents.length), p.1 < s.documents.length := by
        intro p hp
        have hp2 : p ∈ List.insertionSort distLe
            (s.vectors.enum.map (fun e => (e.1, sqDist q e.2))) :=
          (List.take_sublist _ _).mem hp
        have hp3 : p ∈ s.vectors.enum.map (fun e => (e.1, sqDist q e.2)) :=
          (List.perm_insertionSort distLe _).mem_iff.1 hp2
        rcases mem_scored q s.vectors p hp3 with ⟨hv, _⟩
        exact hlen ▸ hv
      rw [length_filterMap_all _ _ ?_]
      · rw [List.length_take, List.length_insertionSort, List.length_map,
          List.enum_length, hlen]
        omega
      · intro p hp
        simp only [dif_pos (hvalid p hp), Option.isSome_some]
    · -- membership / content
      intro r hr
      rcases List.mem_filterMap.1 hr with ⟨p, hp, hfp⟩
      have hp2 : p ∈ List.insertionSort distLe
          (s.vectors.enum.map (fun e => (e.1, sqDist q e.2))) :=
        (List.take_sublist _ _).mem hp
      have hp3 : p ∈ s.vectors.enum.map (fun e => (e.1, sqDist q e.2)) :=
        (List.perm_insertionSort distLe _).mem_iff.1 hp2
      rcases mem_scored q s.vectors p hp3 with ⟨hv, hd2⟩
      have hdoc : p.1 < s.documents.length := hlen ▸ hv
      rw [dif_pos hdoc] at hfp
      refine ⟨p.1, hdoc, hv, ?_, ?_⟩
      · rw [← Option.some_inj.1 hfp]
      · rw [← Option.some_inj.1 hfp, ← hd2]
    · -- pairwise descending similarity
      have hsorted : List.Pairwise distLe (List.insertionSort distLe
          (s.vectors.enum.map (fun e => (e.1, sqDist q e.2)))) :=
        List.sorted_insertionSort distLe _
      have htop : List.Pairwise distLe ((List.insertionSort distLe
          (s.vectors.enum.map (fun e => (e.1, sqDist q e.2)))).take
            (min k s.documents.length)) :=
        hsorted.sublist (List.take_sublist _ _)
      have htop2 : List.Pairwise
          (fun a b : Nat × ℚ => 1 / (1 + b.2) ≤ 1 / (1 + a.2))
          ((List.insertionSort distLe
            (s.vectors.enum.map (fun e => (e.1, sqDist q e.2)))).take
              (min k s.documents.length)) := by
        refine htop.imp_of_mem ?_
        intro a b ha _hb hab
        have ha2 : a ∈ s.vectors.enum.map (fun e => (e.1, sqDist q e.2)) :=
          (List.perm_insertionSort distLe _).mem_iff.1
            ((List.take_sublist _ _).mem ha)
        rcases mem_scored q s.vectors a ha2 with ⟨_, hda⟩
        have hnn : (0 : ℚ) ≤ a.2 := hda ▸ sqDist_nonneg _ _
        have hpos : (0 : ℚ) < 1 + a.2 := by linarith
        exact one_div_le_one_div_of_le hpos (by
          have : a.2 ≤ b.2 := hab
          linarith)
      refine pairwise_filterMap_of_pairwise _ _ htop2 ?_
      intro a b hab x hx y hy
      by_cases hxa : a.1 < s.documents.length
      · by_cases hyb : b.1 < s.documents.length
        · rw [dif_pos hxa] at hx
          rw [dif_pos hyb] at hy
          rw [← Option.some_inj.1 hx, ← Option.some_inj.1 hy]
          exact hab
        · rw [dif_neg hyb] at hy; cases hy
      · rw [dif_neg hxa] at hx; cases hx

/-- C2: on a store with a created index of dimension `d`, a query vector of
dimension `d` and any `k`, `search` succeeds and returns exactly
`min k n` pairs `(text, 1 / (1 + distance))` for the squared-L2 distance of
the corresponding stored vector, sorted descending by similarity; in
particular on an empty index (including a freshly created one) it returns the
empty list and raises no error. -/
theorem search_spec (s : FaissVectorStore) (d : Nat) (q : List ℚ) (k : Nat)
    (hidx : s.indexDim = some d)
    (hlen : s.vectors.length = s.documents.length)
    (hq : q.length = d) :
    ∃ res, searchStore s q k = .ok res ∧
      res.length = min k s.documents.length ∧
      (∀ r ∈ res, ∃ i, ∃ hdoc : i < s.documents.length,
        ∃ hvec : i < s.vectors.length,
        r.1 = s.documents.get ⟨i, hdoc⟩ ∧
        r.2 = 1 / (1 + sqDist q (s.vectors.get ⟨i, hvec⟩))) ∧
      res.Pairwise (fun a b => b.2 ≤ a.2) ∧
      (s.documents = [] → res = []) := by
  rcases searchStore_props s d q k hidx hlen hq with ⟨res, h1, h2, h3, h4⟩
  refine ⟨res, h1, h2, h3, h4, ?_⟩
  intro hnil
  rw [hnil] at h2
  simpa using List.length_eq_zero.1 (by simpa using h2)

/-- Witness for `search_spec`: a store of two one-dimensional vectors; also
exercises the empty-store clause through `min k 0 = 0`. -/
theorem search_spec_witness :
    let s : FaissVectorStore :=
      { dimension := some 1, indexDim := some 1,
        vectors := [[0], [2]], documents := ["a", "b"] }
    s.indexDim = some 1 ∧ s.vectors.length = s.documents.length ∧
      ([(0 : ℚ)].length = 1) ∧
    (∃ res, searchStore s [(0 : ℚ)] 5 = .ok res ∧
      res.length = min 5 s.documents.length ∧
      (∀ r ∈ res, ∃ i, ∃ hdoc : i < s.documents.length,
        ∃ hvec : i < s.vectors.length,
        r.1 = s.documents.get ⟨i, hdoc⟩ ∧
        r.2 = 1 / (1 + sqDist [(0 : ℚ)] (s.vectors.get ⟨i, hvec⟩))) ∧
      res.Pairwise (fun a b => b.2 ≤ a.2) ∧
      (s.documents = [] → res = [])) ∧
    searchStore (FaissVectorStore.init (some 4)) [(0 : ℚ), 0, 0, 0] 3 = .ok [] :=
  ⟨rfl, rfl, rfl,
    search_spec _ 1 [(0 : ℚ)] 5 rfl rfl rfl,
    rfl⟩

/-- C1: saving a store with a created index and then loading through the same
two paths on a fresh store restores the document list element-for-element in
the same order, together with the vectors in the same order, so the
position-i alignment between vector i and text i survives the round trip. -/
theorem save_load_roundtrip (s : FaissVectorStore) (fs : FileSystem)
    (indexPath docsPath : String) (d : Nat)
    (hidx : s.indexDim = some d) (hdocs : s.documents ≠ [])
    (hpaths : indexPath ≠ docsPath) :
    ∃ fs2, save s fs indexPath docsPath = .ok fs2 ∧
      load (FaissVectorStore.init none) fs2 indexPath docsPath =
        .ok { dimension := some d, indexDim := some d,
              vectors := s.vectors, documents := s.documents } := by
  refine ⟨?_, ?_, ?_⟩
  · exact fun p => if p = docsPath then some (.docsFile s.documents)
      else if p = indexPath then some (.indexFile d s.vectors) else fs p
  · simp [save, hidx]
  · simp [load, hpaths, FaissVectorStore.init]

/-- Witness for `save_load_roundtrip` at a concrete one-document store. -/
theorem save_load_roundtrip_witness :
    let s : FaissVectorStore :=
      { dimension := some 2, indexDim := some 2,
        vectors := [[1, 0]], documents := ["doc0"] }
    s.indexDim = some 2 ∧ s.documents ≠ [] ∧ "idx.bin" ≠ "docs.pkl" ∧
    ∃ fs2, save s (fun _ => none) "idx.bin" "docs.pkl" = .ok fs2 ∧
      load (FaissVectorStore.init none) fs2 "idx.bin" "docs.pkl" =
        .ok { dimension := some 2, indexDim := some 2,
              vectors := [[1, 0]], documents := ["doc0"] } :=
  ⟨rfl, by decide, by decide,
    save_load_roundtrip _ (fun _ => none) "idx.bin" "docs.pkl" 2 rfl
      (by decide) (by decide)⟩

/-- C3 counterexample: the claim says `search` with a query of the wrong
dimension fails deterministically on every store with a fixed dimension, but
on a freshly created (empty) index of dimension 2 a query of dimension 3
returns the empty list instead of failing: the code returns `[]` before FAISS
ever sees the query. -/
theorem dimension_contract_counterexample :
    (FaissVectorStore.init (some 2)).indexDim = some 2 ∧
    [(1 : ℚ), 2, 3].length ≠ 2 ∧
    searchStore (FaissVectorStore.init (some 2)) [(1 : ℚ), 2, 3] 5 = .ok [] :=
  ⟨rfl, by decide, rfl⟩

/-- C3 (amended): on a store with a created index of dimension `d`,
`add_documents` fails when the row count differs from the text count and when
the embedding width differs from `d`, leaving the stored vector and document
lists unchanged in both cases; `search` with a query of dimension other than
`d` fails deterministically whenever at least one document is stored (on an
empty index it returns `[]` without any dimension check). -/
theorem dimension_contract (s : FaissVectorStore) (d : Nat)
    (hidx : s.indexDim = some d) :
    (∀ (embeddings : List (List ℚ)) (embCols : Nat) (documents : List String),
      embeddings.length ≠ documents.length →
      (addDocumentsRun s embeddings embCols documents).1.isSome = true ∧
      (addDocumentsRun s embeddings embCols documents).2.vectors = s.vectors ∧
      (addDocumentsRun s embeddings embCols documents).2.documents
        = s.documents) ∧
    (∀ (embeddings : List (List ℚ)) (embCols : Nat) (documents : List String),
      embCols ≠ d →
      (addDocumentsRun s embeddings embCols documents).1.isSome = true ∧
      (addDocumentsRun s embeddings embCols documents).2.vectors = s.vectors ∧
      (addDocumentsRun s embeddings embCols documents).2.documents
        = s.documents) ∧
    (∀ (q : List ℚ) (k : Nat), s.documents ≠ [] → q.length ≠ d →
      ∃ msg, searchStore s q k = .error msg) := by
  have hnn : ¬ s.indexDim = none := by rw [hidx]; simp
  refine ⟨?_, ?_, ?_⟩
  · intro embeddings embCols documents hmm2
    simp [addDocumentsRun, hnn, hmm2]
  · intro embeddings embCols documents hcols
    by_cases hmm2 : embeddings.length = documents.length
    · simp [addDocumentsRun, hnn, hmm2, hidx, hcols]
    · simp [addDocumentsRun, hnn, hmm2]
  · intro q k hdocs hq
    have hlen : ¬ s.documents.length = 0 := by
      simpa using fun h => hdocs (List.length_eq_zero.1 h)
    refine ⟨"faiss AssertionError: d == self.d", ?_⟩
    simp [searchStore, hidx, hlen, hq]

/-- Witness for `dimension_contract` on a concrete one-document store:
a 1-row/0-text mismatch, a width-3 batch against a width-2 index, and a
width-1 query against the width-2 index. -/
theorem dimension_contract_witness :
    let s : FaissVectorStore :=
      { dimension := some 2, indexDim := some 2,
        vectors := [[0, 0]], documents := ["x"] }
    s.indexDim = some 2 ∧
    (([[(1 : ℚ), 1]] : List (List ℚ)).length ≠ ([] : List String).length) ∧
    ((3 : Nat) ≠ 2) ∧ (s.documents ≠ []) ∧ ([(1 : ℚ)].length ≠ 2) ∧
    ((addDocumentsRun s [[(1 : ℚ), 1]] 2 []).1.isSome = true ∧
      (addDocumentsRun s [[(1 : ℚ), 1]] 2 []).2.vectors = s.vectors ∧
      (addDocumentsRun s [[(1 : ℚ), 1]] 2 []).2.documents = s.documents) ∧
    ((addDocumentsRun s [[(1 : ℚ), 1, 1]] 3 ["y"]).1.isSome = true ∧
      (addDocumentsRun s [[(1 : ℚ), 1, 1]] 3 ["y"]).2.vectors = s.vectors ∧
      (addDocumentsRun s [[(1 : ℚ), 1, 1]] 3 ["y"]).2.documents
        = s.documents) ∧
    (∃ msg, searchStore s [(1 : ℚ)] 4 = .error msg) := by
  intro s
  have h := dimension_contract s 2 rfl
  exact ⟨rfl, by decide, by decide, by decide, by decide,
    h.1 [[(1 : ℚ), 1]] 2 [] (by decide),
    h.2.1 [[(1 : ℚ), 1, 1]] 3 ["y"] (by decide),
    h.2.2 [(1 : ℚ)] 4 (by decide) (by decide)⟩

/-- With validated parameters the next start position strictly increases. -/
lemma nextStart_gt (size ov L start : Nat) (hsz : 0 < size) (hov : ov < size)
    (h : start < L) : start < nextStart size ov L start := by
  unfold nextStart
  split
  · omega
  · omega

/-- A successor window never starts after the previous window ends. -/
lemma nextStart_le_end (size ov L start : Nat) (hov : ov < size)
    (h2 : nextStart size ov L start < L) :
    nextStart size ov L start ≤ min (start + size) L := by
  unfold nextStart at h2 ⊢
  by_cases hc : ((start + size - ov : Nat) : Int)
      ≤ ((min (start + size) L : Nat) : Int) - size + ov
  · rw [if_pos hc] at h2 ⊢
  · rw [if_neg hc] at h2 ⊢; omega

/-- When `2 * overlap < size` the loop guard never fires and the start always
advances by exactly `size - overlap`. -/
lemma nextStart_adv (size ov L start : Nat) (hov2 : 2 * ov < size) :
    nextStart size ov L start = start + (size - ov) := by
  unfold nextStart
  split
  · omega
  · omega

/-- When the loop is about to stop, the last window reaches the end of the
text. -/
lemma nextStart_stop (size ov L start : Nat) (h : start < L) (hov : ov < size)
    (hL : L ≤ nextStart size ov L start) : min (start + size) L = L := by
  unfold nextStart at hL
  split at hL
  · omega
  · omega

/-- Once the start position has reached the text length, no window is
emitted, whatever fuel remains. -/
lemma fixedWindows_nil (size ov L fuel start : Nat) (h : ¬ start < L) :
    fixedWindows size ov L fuel start = [] := by
  cases fuel with
  | zero => rfl
  | succ f => simp [fixedWindows, h]

/-- The window list does not depend on the fuel once the fuel covers the
remaining distance: this is the termination argument for the `while` loop of
`FixedSizeChunker.chunk`. -/
lemma fixedWindows_congr (size ov L : Nat) (hsz : 0 < size) (hov : ov < size) :
    ∀ fuel fuel2 start, L - start ≤ fuel → L - start ≤ fuel2 →
      fixedWindows size ov L fuel start = fixedWindows size ov L fuel2 start := by
  intro fuel
  induction fuel with
  | zero =>
    intro fuel2 start h1 _h2
    have hge : ¬ start < L := by omega
    rw [fixedWindows_nil size ov L 0 start hge,
      fixedWindows_nil size ov L fuel2 start hge]
  | succ f ih =>
    intro fuel2 start h1 h2
    by_cases hlt : start < L
    · cases fuel2 with
      | zero => omega
      | succ f2 =>
        have hnext := nextStart_gt size ov L start hsz hov hlt
        simp only [fixedWindows, if_pos hlt]
        rw [ih f2 (nextStart size ov L start) (by omega) (by omega)]
    · rw [fixedWindows_nil size ov L (f + 1) start hlt,
        fixedWindows_nil size ov L fuel2 start hlt]

/-- Structural invariant of the scanned windows: the first window starts at
the current position, every window is a nonempty slice of the text of length
at most `size`, consecutive windows leave no gap and advance by the
`nextStart` rule (in particular by exactly `size - overlap` whenever
`2 * overlap < size`), and the last window ends at the text length. -/
lemma fixedWindows_invariant (size ov L : Nat) (hsz : 0 < size)
    (hov : ov < size) :
    ∀ fuel start, L - start ≤ fuel → start < L →
      (fixedWindows size ov L fuel start).head?
          = some (start, min (start + size) L) ∧
      (∀ w ∈ fixedWindows size ov L fuel start,
        start ≤ w.1 ∧ w.1 < L ∧ w.2 = min (w.1 + size) L) ∧
      List.Chain' (fun a b => b.1 ≤ a.2 ∧ b.1 = nextStart size ov L a.1 ∧
          (2 * ov < size → b.1 = a.1 + (size - ov)))
        (fixedWindows size ov L fuel start) ∧
      (fixedWindows size ov L fuel start).getLast?.map Prod.snd = some L := by
  intro fuel
  induction fuel with
  | zero => intro start h1 h2; omega
  | succ f ih =>
    intro start h1 h2
    have hnext := nextStart_gt size ov L start hsz hov h2
    simp only [fixedWindows, if_pos h2]
    by_cases hn : nextStart size ov L start < L
    · rcases ih (nextStart size ov L start) (by omega) hn with
        ⟨ihHead, ihMem, ihChain, ihLast⟩
      refine ⟨rfl, ?_, ?_, ?_⟩
      · intro w hw
        rcases List.mem_cons.1 hw with hw | hw
        · subst hw; exact ⟨le_refl _, h2, rfl⟩
        · rcases ihMem w hw with ⟨hw1, hw2, hw3⟩
          exact ⟨by omega, hw2, hw3⟩
      · refine List.chain'_cons'.2 ⟨?_, ihChain⟩
        intro b hb
        rw [ihHead] at hb
        rcases Option.some_inj.1 hb with rfl
        refine ⟨nextStart_le_end size ov L start hov hn, rfl, ?_⟩
        intro hadv
        exact nextStart_adv size ov L start hadv
      · cases hrest : fixedWindows size ov L f (nextStart size ov L start) with
        | nil => rw [hrest] at ihHead; cases ihHead
        | cons b t =>
          rw [List.getLast?_cons_cons]
          rw [hrest] at ihLast
          exact ihLast
    · rw [fixedWindows_nil size ov L f (nextStart size ov L start) hn]
      have hend : min (start + size) L = L :=
        nextStart_stop size ov L start h2 hov (by omega)
      refine ⟨rfl, ?_, ?_, ?_⟩
      · intro w hw
        rcases List.mem_cons.1 hw with hw | hw
        · subst hw; exact ⟨le_refl _, h2, rfl⟩
        · cases hw
      · exact List.chain'_singleton _
      · simp [hend]

/-- C4 counterexample: the claim says the window always advances by
`size - overlap`.  With the valid parameters `size = 10`, `overlap = 6` and a
20-character text the code scans the windows `(0,10), (10,20)`: the second
window starts 10 characters after the first, not `10 - 6 = 4`, and the two
emitted chunks are the two disjoint halves (the guard
`start <= end - size + overlap` rewrites `start` to `end` whenever
`2 * overlap >= size`). -/
theorem fixedChunk_advance_counterexample :
    (0 < 10 ∧ 6 < 10) ∧
    fixedWindows 10 6 20 20 0 = [(0, 10), (10, 20)] ∧
    (10 : Nat) - 0 ≠ 10 - 6 ∧
    fixedChunk 10 6 (List.replicate 20 'a')
      = [List.replicate 10 'a', List.replicate 10 'a'] :=
  ⟨by decide, by decide, by decide, by decide⟩

/-- C4 (amended): for valid parameters and nonempty text the chunking loop
terminates (the scanned window list is independent of any sufficient fuel),
the windows cover the text with no gaps - the first starts at 0, consecutive
windows satisfy `next.start ≤ previous.end`, and the last ends at the text
length - each window is nonempty of length at most `size`, the start
advances by the `nextStart` rule of the source (exactly `size - overlap`
whenever `2 * overlap < size`, and to the previous end when the guard
fires), and the emitted chunks are precisely the stripped window slices with
empty chunks dropped. -/
theorem fixedChunk_coverage (size ov : Nat) (text : List Char)
    (hsz : 0 < size) (hov : ov < size) (htext : text ≠ []) :
    (∀ fuel, text.length ≤ fuel →
      fixedWindows size ov text.length fuel 0 =
        fixedWindows size ov text.length text.length 0) ∧
    (fixedWindows size ov text.length text.length 0).head?
        = some (0, min size text.length) ∧
    (∀ w ∈ fixedWindows size ov text.length text.length 0,
      w.1 < w.2 ∧ w.2 ≤ text.length ∧ w.2 - w.1 ≤ size) ∧
    List.Chain' (fun a b => b.1 ≤ a.2 ∧
        b.1 = nextStart size ov text.length a.1 ∧
        (2 * ov < size → b.1 = a.1 + (size - ov)))
      (fixedWindows size ov text.length text.length 0) ∧
    (fixedWindows size ov text.length text.length 0).getLast?.map Prod.snd
        = some text.length ∧
    (pyStrip text ≠ [] →
      fixedChunk size ov text =
        ((fixedWindows size ov text.length text.length 0).map
          (fun w => pyStrip ((text.drop w.1).take (w.2 - w.1)))).filter
            (fun c => c ≠ [])) := by
  have hL : 0 < text.length := List.length_pos.2 htext
  rcases fixedWindows_invariant size ov text.length hsz hov text.length 0
      (by omega) hL with ⟨hHead, hMem, hChain, hLast⟩
  refine ⟨?_, ?_, ?_, hChain, hLast, ?_⟩
  · intro fuel hfuel
    exact fixedWindows_congr size ov text.length hsz hov fuel text.length 0
      (by omega) (by omega)
  · simpa using hHead
  · intro w hw
    rcases hMem w hw with ⟨_, hw2, hw3⟩
    refine ⟨?_, ?_, ?_⟩ <;> omega
  · intro hstrip
    simp [fixedChunk, hstrip]

/-- Witness for `fixedChunk_coverage` at `size = 5`, `overlap = 2` on an
8-character text. -/
theorem fixedChunk_coverage_witness :
    (0 < 5 ∧ 2 < 5 ∧ ('a' :: List.replicate 7 'b') ≠ []) ∧
    ((∀ fuel, ('a' :: List.replicate 7 'b').length ≤ fuel →
      fixedWindows 5 2 ('a' :: List.replicate 7 'b').length fuel 0 =
        fixedWindows 5 2 ('a' :: List.replicate 7 'b').length
          ('a' :: List.replicate 7 'b').length 0) ∧
    (fixedWindows 5 2 ('a' :: List.replicate 7 'b').length
        ('a' :: List.replicate 7 'b').length 0).head?
        = some (0, min 5 ('a' :: List.replicate 7 'b').length) ∧
    (∀ w ∈ fixedWindows 5 2 ('a' :: List.replicate 7 'b').length
        ('a' :: List.replicate 7 'b').length 0,
      w.1 < w.2 ∧ w.2 ≤ ('a' :: List.replicate 7 'b').length ∧
        w.2 - w.1 ≤ 5) ∧
    List.Chain' (fun a b => b.1 ≤ a.2 ∧
        b.1 = nextStart 5 2 ('a' :: List.replicate 7 'b').length a.1 ∧
        (2 * 2 < 5 → b.1 = a.1 + (5 - 2)))
      (fixedWindows 5 2 ('a' :: List.replicate 7 'b').length
        ('a' :: List.replicate 7 'b').length 0) ∧
    (fixedWindows 5 2 ('a' :: List.replicate 7 'b').length
        ('a' :: List.replicate 7 'b').length 0).getLast?.map Prod.snd
        = some ('a' :: List.replicate 7 'b').length ∧
    (pyStrip ('a' :: List.replicate 7 'b') ≠ [] →
      fixedChunk 5 2 ('a' :: List.replicate 7 'b') =
        ((fixedWindows 5 2 ('a' :: List.replicate 7 'b').length
            ('a' :: List.replicate 7 'b').length 0).map
          (fun w => pyStrip ((('a' :: List.replicate 7 'b').drop w.1).take
            (w.2 - w.1)))).filter (fun c => c ≠ []))) :=
  ⟨⟨by decide, by decide, by decide⟩,
    fixedChunk_coverage 5 2 ('a' :: List.replicate 7 'b')
      (by decide) (by decide) (by decide)⟩

/-- Stripping never lengthens a string. -/
lemma pyStrip_length_le (l : List Char) : (pyStrip l).length ≤ l.length := by
  unfold pyStrip
  rw [List.length_reverse]
  calc ((l.dropWhile Char.isWhitespace).reverse.dropWhile
          Char.isWhitespace).length
      ≤ (l.dropWhile Char.isWhitespace).reverse.length :=
        (List.dropWhile_sublist _).length_le
    _ = (l.dropWhile Char.isWhitespace).length := List.length_reverse _
    _ ≤ l.length := (List.dropWhile_sublist _).length_le

/-- `getLastD` commutes with projecting the second component. -/
lemma getLastD_map_snd (l : List (ChunkTag × List Char))
    (d : ChunkTag × List Char) :
    (l.getLastD d).2 = (l.map Prod.snd).getLastD d.2 := by
  induction l generalizing d with
  | nil => rfl
  | cons a t ih => rw [List.getLastD_cons, List.map_cons, List.getLastD_cons, ih]

/-- Forgetting the provenance tags of a chunker state. -/
def eraseSt (st : List (ChunkTag × List Char) × List Char) :
    List (List Char) × List Char :=
  (st.1.map Prod.snd, st.2)

/-- The tagged sentence-flush step erases to the plain one. -/
lemma sentenceFlushStep_erase (maxS : Nat)
    (st : List (ChunkTag × List Char) × List Char) (sent : List Char) :
    eraseSt (sentenceFlushStepT maxS st sent)
      = sentenceFlushStep maxS (eraseSt st) sent := by
  unfold sentenceFlushStepT sentenceFlushStep eraseSt
  by_cases h1 : st.2.length + sent.length ≤ maxS
  · simp [h1]
  · by_cases h2 : st.2 = [] <;> simp [h1, h2]

/-- The tagged sentence fold erases to the plain one. -/
lemma sentFold_erase (maxS : Nat) (sents : List (List Char)) :
    ∀ st, eraseSt (sents.foldl (sentenceFlushStepT maxS) st)
      = sents.foldl (sentenceFlushStep maxS) (eraseSt st) := by
  induction sents with
  | nil => intro st; rfl
  | cons s rest ih =>
    intro st
    rw [List.foldl_cons, List.foldl_cons, ih, sentenceFlushStep_erase]

/-- The tagged paragraph step erases to the plain one. -/
lemma semStep_erase (maxS minS : Nat)
    (st : List (ChunkTag × List Char) × List Char) (para0 : List Char) :
    eraseSt (semStepT maxS minS st para0)
      = semStep maxS minS (eraseSt st) para0 := by
  unfold semStepT semStep
  dsimp only [eraseSt]
  split_ifs <;>
    first
      | rfl
      | (simpa [eraseSt] using sentFold_erase maxS
          (splitSentences (pyStrip para0))
          (st.1 ++ [(ChunkTag.paraFlush, st.2)], []))
      | (simpa [eraseSt] using sentFold_erase maxS _ _)

/-- The tagged paragraph fold erases to the plain one. -/
lemma semFold_erase (maxS minS : Nat) (ps : List (List Char)) :
    ∀ st, eraseSt (ps.foldl (semStepT maxS minS) st)
      = ps.foldl (semStep maxS minS) (eraseSt st) := by
  induction ps with
  | nil => intro st; rfl
  | cons p rest ih =>
    intro st
    rw [List.foldl_cons, List.foldl_cons, ih, semStep_erase]

/-- The tagged trailing-buffer handling erases to the plain one. -/
lemma semFinal_erase (minS : Nat)
    (st : List (ChunkTag × List Char) × List Char) :
    (semFinalT minS st).map Prod.snd = semFinal minS (eraseSt st) := by
  unfold semFinalT semFinal
  dsimp only [eraseSt]
  simp only [List.map_eq_nil_iff]
  split_ifs with h1 h2 h3
  · rfl
  · simp
  · simp
  · have hlast := getLastD_map_snd st.1 (ChunkTag.finalKeep, [])
    simp only [List.map_append, List.map_cons, List.map_nil,
      List.map_dropLast]
    rw [hlast]

/-- Erasing the provenance tags of `semanticChunkT` gives `semanticChunk`:
the tagged chunker is the same computation. -/
lemma semanticChunk_erase (maxS minS : Nat) (text : List Char) :
    (semanticChunkT maxS minS text).map Prod.snd
      = semanticChunk maxS minS text := by
  unfold semanticChunkT semanticChunk
  by_cases h : pyStrip text = []
  · simp [h]
  · rw [if_neg h, if_neg h, semFinal_erase]
    congr 1
    simpa [eraseSt] using
      semFold_erase maxS minS (splitParagraphs text) ([], [])

/-- A chunk text coming out of the sentence splitter (of any buffer). -/
def SentencePiece (c : List Char) : Prop := ∃ t, c ∈ splitSentences t

/-- Invariant of every chunk emitted during the paragraph/sentence folds:
an oversized chunk is a sentence-splitter output (or its strip) - the
unavoidable remainder of sentence splitting - and an undersized chunk was
flushed by the sentence loop. -/
def ChunkOk (maxS minS : Nat) (p : ChunkTag × List Char) : Prop :=
  (maxS < p.2.length →
    ∃ s, (p.2 = s ∨ p.2 = pyStrip s) ∧ SentencePiece s) ∧
  (p.2.length < minS → p.1 = ChunkTag.sentFlush)

/-- Invariant of the running buffer `current_chunk`: within size, or a single
sentence-splitter output. -/
def CurOk (maxS : Nat) (c : List Char) : Prop :=
  c.length ≤ maxS ∨ SentencePiece c

/-- The sentence re-accumulation fold preserves the chunk invariant, with the
running `temp_chunk` empty, within size, or a single sentence. -/
lemma sentFold_inv (maxS minS : Nat) (sents : List (List Char))
    (hs : ∀ s ∈ sents, SentencePiece s) :
    ∀ (cT : List (ChunkTag × List Char)) (temp : List Char),
      (∀ p ∈ cT, ChunkOk maxS minS p) →
      (temp = [] ∨ temp.length ≤ maxS ∨ SentencePiece temp) →
      (∀ p ∈ (sents.foldl (sentenceFlushStepT maxS) (cT, temp)).1,
        ChunkOk maxS minS p) ∧
      ((sents.foldl (sentenceFlushStepT maxS) (cT, temp)).2 = [] ∨
        (sents.foldl (sentenceFlushStepT maxS) (cT, temp)).2.length ≤ maxS ∨
        SentencePiece (sents.foldl (sentenceFlushStepT maxS) (cT, temp)).2) := by
  induction sents with
  | nil => intro cT temp hC hT; exact ⟨hC, hT⟩
  | cons sent rest ih =>
    intro cT temp hC hT
    have hs2 : ∀ s ∈ rest, SentencePiece s := fun s h => hs s (by simp [h])
    rw [List.foldl_cons]
    by_cases h1 : temp.length + sent.length ≤ maxS
    · have hstep : sentenceFlushStepT maxS (cT, temp) sent
          = (cT, temp ++ sent) := by
        simp [sentenceFlushStepT, h1]
      rw [hstep]
      refine ih hs2 cT (temp ++ sent) hC (Or.inr (Or.inl ?_))
      simpa using h1
    · by_cases h2 : temp = []
      · have hstep : sentenceFlushStepT maxS (cT, temp) sent = (cT, sent) := by
          simp [sentenceFlushStepT, h1, h2]
        rw [hstep]
        exact ih hs2 cT sent hC (Or.inr (Or.inr (hs sent (by simp))))
      · have hstep : sentenceFlushStepT maxS (cT, temp) sent
            = (cT ++ [(ChunkTag.sentFlush, pyStrip temp)], sent) := by
          simp [sentenceFlushStepT, h1, h2]
        rw [hstep]
        refine ih hs2 _ sent ?_ (Or.inr (Or.inr (hs sent (by simp))))
        intro p hp
        rcases List.mem_append.1 hp with hp | hp
        · exact hC p hp
        · rcases List.mem_singleton.1 hp with rfl
          constructor
          · intro hbig
            have hbig2 : maxS < (pyStrip temp).length := hbig
            have hle := pyStrip_length_le temp
            have htemp : SentencePiece temp := by
              rcases hT with rfl | hT | hT
              · exact absurd rfl h2
              · omega
              · exact hT
            exact ⟨temp, Or.inr rfl, htemp⟩
          · intro _
            rfl

/-- The paragraph fold preserves the chunk invariant, with the running
`current_chunk` within size or a single sentence. -/
lemma semFold_inv (maxS minS : Nat) (ps : List (List Char)) :
    ∀ (cT : List (ChunkTag × List Char)) (cur : List Char),
      (∀ p ∈ cT, ChunkOk maxS minS p) → CurOk maxS cur →
      (∀ p ∈ (ps.foldl (semStepT maxS minS) (cT, cur)).1,
        ChunkOk maxS minS p) ∧
      CurOk maxS (ps.foldl (semStepT maxS minS) (cT, cur)).2 := by
  induction ps with
  | nil => intro cT cur hC hcur; exact ⟨hC, hcur⟩
  | cons para0 rest ih =>
    intro cT cur hC hcur
    rw [List.foldl_cons]
    rcases hnext : semStepT maxS minS (cT, cur) para0 with ⟨cT2, cur2⟩
    have hok : (∀ p ∈ cT2, ChunkOk maxS minS p) ∧ CurOk maxS cur2 := by
      unfold semStepT at hnext
      by_cases hp : pyStrip para0 = []
      · rw [if_pos hp] at hnext
        cases hnext
        exact ⟨hC, hcur⟩
      · rw [if_neg hp] at hnext
        by_cases h2 : cur.length + (pyStrip para0).length + 2 ≤ maxS
        · rw [if_pos h2] at hnext
          cases hnext
          refine ⟨hC, Or.inl ?_⟩
          by_cases h3 : cur = [] <;> simp [h3, nl2] <;> omega
        · rw [if_neg h2] at hnext
          dsimp only at hnext
          set st1 := (if minS ≤ cur.length
              then (cT ++ [(ChunkTag.paraFlush, cur)], pyStrip para0)
              else if cur = [] then (cT, pyStrip para0)
              else (cT, cur ++ nl2 ++ pyStrip para0)) with hst1
          have hst1C : ∀ p ∈ st1.1, ChunkOk maxS minS p := by
            rw [hst1]
            by_cases h3 : minS ≤ cur.length
            · rw [if_pos h3]
              intro p hp
              rcases List.mem_append.1 hp with hp | hp
              · exact hC p hp
              · rcases List.mem_singleton.1 hp with rfl
                constructor
                · intro hbig
                  have hbig2 : maxS < cur.length := hbig
                  rcases hcur with hcur | hcur
                  · omega
                  · exact ⟨cur, Or.inl rfl, hcur⟩
                · intro hsmall
                  have hsmall2 : cur.length < minS := hsmall
                  omega
            · rw [if_neg h3]
              by_cases h4 : cur = []
              · rw [if_pos h4]; exact hC
              · rw [if_neg h4]; exact hC
          by_cases h5 : maxS < st1.2.length
          · rw [if_pos h5] at hnext
            have hinner := sentFold_inv maxS minS (splitSentences st1.2)
              (fun s h => ⟨st1.2, h⟩) st1.1 [] hst1C (Or.inl rfl)
            rw [hnext] at hinner
            refine ⟨hinner.1, ?_⟩
            rcases hinner.2 with h | h | h
            · refine Or.inl ?_
              have hnil : cur2 = [] := h
              rw [hnil]
              exact Nat.zero_le _
            · exact Or.inl h
            · exact Or.inr h
          · rw [if_neg h5] at hnext
            have hcur2 : CurOk maxS st1.2 := Or.inl (by omega)
            rw [hnext] at hst1C hcur2
            exact ⟨hst1C, hcur2⟩
    exact ih cT2 cur2 hok.1 hok.2

/-- Every chunk of the tagged semantic chunker except possibly the last one
satisfies the chunk invariant (the trailing-buffer handling may keep or merge
one more chunk at the last position only). -/
lemma semanticChunkT_dropLast_ok (maxS minS : Nat) (text : List Char) :
    ∀ p ∈ (semanticChunkT maxS minS text).dropLast, ChunkOk maxS minS p := by
  unfold semanticChunkT
  by_cases h : pyStrip text = []
  · simp [h]
  · rw [if_neg h]
    rcases hfold : (splitParagraphs text).foldl (semStepT maxS minS) ([], [])
      with ⟨cT, cur⟩
    have hinv := semFold_inv maxS minS (splitParagraphs text) [] []
      (by intro p hp; cases hp) (Or.inl (Nat.zero_le _))
    rw [hfold] at hinv
    have hC : ∀ p ∈ cT, ChunkOk maxS minS p := hinv.1
    unfold semFinalT
    dsimp only
    by_cases h1 : cur = []
    · rw [if_pos h1]
      intro p hp
      exact hC p ((List.dropLast_sublist cT).mem hp)
    · rw [if_neg h1]
      by_cases h2 : minS ≤ cur.length
      · rw [if_pos h2, List.dropLast_concat]
        exact hC
      · rw [if_neg h2]
        by_cases h3 : cT = []
        · rw [if_pos h3]
          intro p hp
          simp at hp
        · rw [if_neg h3, List.dropLast_concat]
          intro p hp
          exact hC p ((List.dropLast_sublist cT).mem hp)

/-- C5 counterexample, both bounds.  Minimum: with `max_size = 10`,
`min_size = 5` the text `"aaa. bbbbbbbb."` (one paragraph longer than
`max_size`) produces the chunks `["aaa.", "bbbbbbbb."]`; the first chunk has
4 < 5 characters and is not the final chunk, yet the corpus is not short -
it was flushed by the sentence loop, which never checks `min_size`.
Maximum: the text `"aaaaaaaa\n\nbbbbbbbb\n\ncc"` produces
`["aaaaaaaa", "bbbbbbbb\n\ncc"]`; the last chunk has 12 > 10 characters even
though every paragraph (and every sentence of every paragraph) of the input
is within `max_size`: the trailing 2-character buffer is merged into the
previous chunk without any size check. -/
theorem semanticChunk_bounds_counterexample :
    (semanticChunk 10 5 "aaa. bbbbbbbb.".toList
        = ["aaa.".toList, "bbbbbbbb.".toList] ∧
      ("aaa.".toList).length < 5 ∧
      (semanticChunk 10 5 "aaa. bbbbbbbb.".toList).length = 2) ∧
    (semanticChunk 10 5 "aaaaaaaa\n\nbbbbbbbb\n\ncc".toList
        = ["aaaaaaaa".toList, "bbbbbbbb\n\ncc".toList] ∧
      10 < ("bbbbbbbb\n\ncc".toList).length ∧
      (∀ p ∈ splitParagraphs "aaaaaaaa\n\nbbbbbbbb\n\ncc".toList,
        p.length ≤ 10 ∧
        ∀ s ∈ splitSentences (pyStrip p), s.length ≤ 10)) :=
  ⟨⟨by decide, by decide, by decide⟩, ⟨by decide, by decide, by decide⟩⟩

/-- C5 (amended): every chunk emitted by the semantic chunker other than the
final one satisfies both bounds up to the two code-forced exceptions: a chunk
longer than `max_size` is an unavoidable remainder of sentence splitting (it
is, or is the trimmed form of, a single output of the sentence splitter), and
a chunk shorter than `min_size` was flushed by the sentence-splitting loop
(tag `sentFlush` in the instrumented chunker).  The final chunk is exempt
from both bounds: it may be short (short corpus, as the claim says) and it
may also exceed `max_size` when the short trailing buffer is merged into
it. -/
theorem semanticChunk_size_bounds (maxS minS : Nat) (text : List Char)
    (i : Nat) (hi : i < (semanticChunk maxS minS text).length)
    (hlast : i + 1 ≠ (semanticChunk maxS minS text).length) :
    (maxS < ((semanticChunk maxS minS text).get ⟨i, hi⟩).length →
      ∃ s, ((semanticChunk maxS minS text).get ⟨i, hi⟩ = s ∨
            (semanticChunk maxS minS text).get ⟨i, hi⟩ = pyStrip s) ∧
        SentencePiece s) ∧
    (((semanticChunk maxS minS text).get ⟨i, hi⟩).length < minS →
      ∃ h2 : i < (semanticChunkT maxS minS text).length,
        ((semanticChunkT maxS minS text).get ⟨i, h2⟩).1
          = ChunkTag.sentFlush) := by
  have herase := semanticChunk_erase maxS minS text
  have hlen : (semanticChunkT maxS minS text).length
      = (semanticChunk maxS minS text).length := by
    rw [← herase, List.length_map]
  have hiT : i < (semanticChunkT maxS minS text).length := by omega
  have hget : (semanticChunk maxS minS text).get ⟨i, hi⟩
      = ((semanticChunkT maxS minS text).get ⟨i, hiT⟩).2 := by
    have hopt : (semanticChunk maxS minS text)[i]?
        = ((semanticChunkT maxS minS text)[i]?).map Prod.snd := by
      rw [← herase, List.getElem?_map]
    rw [List.getElem?_eq_getElem hi, List.getElem?_eq_getElem hiT] at hopt
    simpa [List.get_eq_getElem] using hopt
  have hmem : (semanticChunkT maxS minS text).get ⟨i, hiT⟩
      ∈ (semanticChunkT maxS minS text).dropLast := by
    rw [List.dropLast_eq_take]
    have hlt : i < (List.take ((semanticChunkT maxS minS text).length - 1)
        (semanticChunkT maxS minS text)).length := by
      simp only [List.length_take]
      omega
    have hEq : (List.take ((semanticChunkT maxS minS text).length - 1)
        (semanticChunkT maxS minS text))[i] = (semanticChunkT maxS minS
          text)[i] := List.getElem_take _
    rw [List.get_eq_getElem, ← hEq]
    exact List.getElem_mem hlt
  rcases semanticChunkT_dropLast_ok maxS minS text _ hmem with ⟨hmax, hmin⟩
  constructor
  · intro hbig
    rw [hget] at hbig ⊢
    exact hmax hbig
  · intro hsmall
    rw [hget] at hsmall
    exact ⟨hiT, hmin hsmall⟩

/-- Witness for `semanticChunk_size_bounds` at the first chunk of
`"aaa. bbbbbbbb."` with `max_size = 10`, `min_size = 5`: a non-final chunk of
4 characters, below `min_size`, tagged as a sentence flush. -/
theorem semanticChunk_size_bounds_witness :
    ∃ hi : 0 < (semanticChunk 10 5 "aaa. bbbbbbbb.".toList).length,
      (0 + 1 ≠ (semanticChunk 10 5 "aaa. bbbbbbbb.".toList).length) ∧
      ((10 < ((semanticChunk 10 5 "aaa. bbbbbbbb.".toList).get
          ⟨0, hi⟩).length →
        ∃ s, ((semanticChunk 10 5 "aaa. bbbbbbbb.".toList).get ⟨0, hi⟩ = s ∨
              (semanticChunk 10 5 "aaa. bbbbbbbb.".toList).get ⟨0, hi⟩
                = pyStrip s) ∧
          SentencePiece s) ∧
      (((semanticChunk 10 5 "aaa. bbbbbbbb.".toList).get ⟨0, hi⟩).length < 5 →
        ∃ h2 : 0 < (semanticChunkT 10 5 "aaa. bbbbbbbb.".toList).length,
          ((semanticChunkT 10 5 "aaa. bbbbbbbb.".toList).get ⟨0, h2⟩).1
            = ChunkTag.sentFlush)) :=
  ⟨by decide, by decide,
    semanticChunk_size_bounds 10 5 ("aaa. bbbbbbbb.".toList) 0
      (by decide) (by decide)⟩

end Agent

namespace Agent

/-- C6: an unfit `SimpleEmbedder` raises on `embed`; once `fit` succeeded on
a nonempty corpus, `embed` succeeds on a single string (one row) and on a
list of strings (one row per input). -/
theorem simple_embedder_lifecycle :
    (∀ (e : SimpleEmbedder) (texts : String ⊕ List String),
      e.fitted = false →
      e.embed texts = .error "向量化器未训练，请先调用 fit() 方法") ∧
    (∀ (e : SimpleEmbedder) (corpus : List String), corpus ≠ [] →
      ∃ e2, e.fit corpus = .ok e2 ∧ e2.fitted = true ∧
        (∀ s : String, ∃ m, e2.embed (.inl s) = .ok m ∧ m.length = 1) ∧
        (∀ l : List String, ∃ m,
          e2.embed (.inr l) = .ok m ∧ m.length = l.length)) := by
  constructor
  · intro e texts hfit
    simp [SimpleEmbedder.embed, hfit]
  · intro e corpus hc
    refine ⟨{ e with fitted := true, vocab := buildVocab e.maxFeatures corpus },
      ?_, rfl, ?_, ?_⟩
    · simp [SimpleEmbedder.fit, hc]
    · intro s
      refine ⟨transform (buildVocab e.maxFeatures corpus) [s], ?_, ?_⟩
      · simp [SimpleEmbedder.embed, normalizeInput]
      · simp [transform]
    · intro l
      refine ⟨transform (buildVocab e.maxFeatures corpus) l, ?_, ?_⟩
      · simp [SimpleEmbedder.embed, normalizeInput]
      · simp [transform]

/-- Witness for `simple_embedder_lifecycle` at a concrete embedder and
corpus. -/
theorem simple_embedder_lifecycle_witness :
    ((SimpleEmbedder.mk0 1000).fitted = false ∧
      (SimpleEmbedder.mk0 1000).embed (.inl "hi")
        = .error "向量化器未训练，请先调用 fit() 方法") ∧
    (["alpha beta"] ≠ ([] : List String) ∧
      ∃ e2, (SimpleEmbedder.mk0 1000).fit ["alpha beta"] = .ok e2 ∧
        e2.fitted = true ∧
        (∀ s : String, ∃ m, e2.embed (.inl s) = .ok m ∧ m.length = 1) ∧
        (∀ l : List String, ∃ m,
          e2.embed (.inr l) = .ok m ∧ m.length = l.length)) :=
  ⟨⟨rfl, simple_embedder_lifecycle.1 (SimpleEmbedder.mk0 1000) (.inl "hi") rfl⟩,
   ⟨by decide,
    simple_embedder_lifecycle.2 (SimpleEmbedder.mk0 1000) ["alpha beta"]
      (by decide)⟩⟩

/-- C7: when the remote embedder fails on a call and the local embedder is
fit, `HybridEmbedder.embed` returns exactly what the local embedder returns -
a matrix with one row per normalised input - and does not raise. -/
theorem hybrid_fallback (h : HybridEmbedder) (a : APIEmbedder)
    (texts : String ⊕ List String) (msg : String)
    (hapi : h.api = some a)
    (hfail : a.respond (normalizeInput texts) = .error msg)
    (hfit : h.simple.fitted = true) :
    h.embed texts = h.simple.embed texts ∧
    ∃ m, h.embed texts = .ok m ∧ m.length = (normalizeInput texts).length := by
  have hemb : h.embed texts = h.simple.embed texts := by
    simp only [HybridEmbedder.embed, hapi, APIEmbedder.embed, hfail]
  refine ⟨hemb, transform h.simple.vocab (normalizeInput texts), ?_, ?_⟩
  · rw [hemb]
    simp [SimpleEmbedder.embed, hfit]
  · simp [transform]

/-- Witness for `hybrid_fallback`: a remote embedder hard-wired to fail and a
fit local embedder. -/
theorem hybrid_fallback_witness :
    let a : APIEmbedder := { apiKey := "k", respond := fun _ => .error "boom" }
    let h : HybridEmbedder :=
      { api := some a,
        simple := { maxFeatures := 1000, fitted := true, vocab := ["alpha"] } }
    h.api = some a ∧
    a.respond (normalizeInput (.inl "alpha")) = .error "boom" ∧
    h.simple.fitted = true ∧
    (h.embed (.inl "alpha") = h.simple.embed (.inl "alpha") ∧
      ∃ m, h.embed (.inl "alpha") = .ok m ∧
        m.length = (normalizeInput (.inl "alpha")).length) :=
  ⟨rfl, rfl, rfl,
    hybrid_fallback _ _ (.inl "alpha") "boom" rfl rfl rfl⟩

/-- Appending the chunks of one file keeps `chunk_index` equal to the global
position. -/
lemma appendChunk_invariant (f : SourceFile) (cs : List String) :
    ∀ st : List String × List ChunkMeta,
      st.2.map (fun m => m.chunk_index) = List.range st.1.length →
      ((cs.foldl (appendChunk f) st).2.map (fun m => m.chunk_index))
        = List.range (cs.foldl (appendChunk f) st).1.length := by
  induction cs with
  | nil => intro st hst; exact hst
  | cons c rest ih =>
    intro st hst
    simp only [List.foldl_cons]
    refine ih _ ?_
    have hlen : st.2.length = st.1.length := by
      have := congrArg List.length hst
      simpa using this
    simp only [appendChunk, List.map_append, hst, List.map_cons, List.map_nil,
      List.length_append, List.length_cons, List.length_nil]
    rw [List.range_succ]

/-- The offline scan loop keeps `chunk_index` equal to the global position,
whatever initial state satisfies the invariant. -/
lemma processDirectory_invariant (chunker : String → List String)
    (files : List SourceFile) :
    ∀ st : List String × List ChunkMeta,
      st.2.map (fun m => m.chunk_index) = List.range st.1.length →
      ((files.foldl (processFileStep chunker) st).2.map
          (fun m => m.chunk_index))
        = List.range (files.foldl (processFileStep chunker) st).1.length := by
  induction files with
  | nil => intro st hst; exact hst
  | cons f rest ih =>
    intro st hst
    simp only [List.foldl_cons]
    refine ih _ ?_
    unfold processFileStep
    by_cases ht : f.text = ""
    · simpa [ht] using hst
    · by_cases hcs : chunker f.text = []
      · simpa [ht, hcs] using hst
      · simpa [ht, hcs] using appendChunk_invariant f (chunker f.text) st hst

/-- C8: after the offline scan loop, the metadata entry at every position `i`
carries `chunk_index = i`: the index is the global running index over all
files, i.e. the position in the accumulated chunk list. -/
theorem global_chunk_index (chunker : String → List String)
    (files : List SourceFile) (i : Nat)
    (h : i < (processDirectory chunker files).2.length) :
    ((processDirectory chunker files).2.get ⟨i, h⟩).chunk_index = i := by
  have key : ∀ (l1 : List String) (l2 : List ChunkMeta),
      l2.map (fun m => m.chunk_index) = List.range l1.length →
      ∀ i (hi : i < l2.length), (l2.get ⟨i, hi⟩).chunk_index = i := by
    intro l1 l2 hmap i hi
    have hget := congrArg (fun l => l[i]?) hmap
    simp only [List.getElem?_map, List.getElem?_eq_getElem hi] at hget
    have hlen : l2.length = l1.length := by
      simpa using congrArg List.length hmap
    rw [List.getElem?_range (by omega)] at hget
    simpa [List.get_eq_getElem] using hget
  exact key (processDirectory chunker files).1 (processDirectory chunker files).2
    (processDirectory_invariant chunker files ([], []) (by simp)) i h

/-- Witness for `global_chunk_index`: two files, three chunks, checked at
position 2. -/
theorem global_chunk_index_witness :
    (2 < (processDirectory (fun t => [t, t])
      [{ path := "d/a.txt", name := "a.txt", text := "aa" },
       { path := "d/b.txt", name := "b.txt", text := "bb" }]).2.length) ∧
    ∀ h : 2 < (processDirectory (fun t => [t, t])
      [{ path := "d/a.txt", name := "a.txt", text := "aa" },
       { path := "d/b.txt", name := "b.txt", text := "bb" }]).2.length,
    ((processDirectory (fun t => [t, t])
      [{ path := "d/a.txt", name := "a.txt", text := "aa" },
       { path := "d/b.txt", name := "b.txt", text := "bb" }]).2.get
        ⟨2, h⟩).chunk_index = 2 :=
  ⟨by decide, fun h => global_chunk_index _ _ 2 h⟩

/-- `List.indexOf` points at or before any other occurrence. -/
lemma indexOf_le_of_get {α : Type} [DecidableEq α] (l : List α) (a : α) :
    ∀ j (hj : j < l.length), l.get ⟨j, hj⟩ = a → List.indexOf a l ≤ j := by
  induction l with
  | nil => intro j hj; simp at hj
  | cons b t ih =>
    intro j hj hget
    by_cases hb : b = a
    · subst hb; rw [List.indexOf_cons_self]; omega
    · rw [List.indexOf_cons_ne t hb]
      cases j with
      | zero =>
        simp only [List.get] at hget
        exact absurd hget hb
      | succ j2 =>
        have := ih j2 (by simpa using hj) (by simpa using hget)
        omega

/-- Every document returned by `searchStore` is one of the stored
documents. -/
lemma searchStore_doc_mem (s : FaissVectorStore) (q : List ℚ) (k : Nat)
    (res : List (String × ℚ)) (hres : searchStore s q k = .ok res) :
    ∀ p ∈ res, p.1 ∈ s.documents := by
  unfold searchStore at hres
  split at hres
  · injection hres with h2
    subst h2
    intro p hp
    cases hp
  · split at hres
    · injection hres with h2
      subst h2
      intro p hp
      cases hp
    · split at hres
      · cases hres
      · injection hres with h2
        subst h2
        intro p hp
        rcases List.mem_filterMap.1 hp with ⟨x, _hx, hfx⟩
        by_cases hlt : x.1 < s.documents.length
        · rw [dif_pos hlt] at hfx
          rw [← Option.some_inj.1 hfx]
          exact List.get_mem _ _ _
        · rw [dif_neg hlt] at hfx
          cases hfx

/-- C9: with a nonempty metadata list, every result of a successful
`OnlineRetriever.search` call carries the metadata found at
`documents.index(document)` - the first position whose stored text equals the
returned text (first-occurrence content lookup, not the position of the matched
vector): the looked-up index is at most any position holding an equal
text, so duplicated texts all receive the metadata of the first
occurrence. -/
theorem metadata_by_content (r : OnlineRetriever) (query : String)
    (topK : Nat) (results : List SearchResult)
    (hmd : r.metadata ≠ [])
    (hok : OnlineRetriever.search r query topK true = .ok results) :
    ∀ res ∈ results,
      res.document ∈ r.vector_store.documents ∧
      res.metadata =
        (if h : List.indexOf res.document r.vector_store.documents
            < r.metadata.length then
          some (r.metadata.get
            ⟨List.indexOf res.document r.vector_store.documents, h⟩)
        else none) ∧
      (∀ j (hj : j < r.vector_store.documents.length),
        r.vector_store.documents.get ⟨j, hj⟩ = res.document →
        List.indexOf res.document r.vector_store.documents ≤ j) := by
  by_cases hq : pyStrip query.toList = []
  · rw [OnlineRetriever.search, if_pos hq] at hok
    injection hok with h2
    subst h2
    intro res hres
    cases hres
  · rw [OnlineRetriever.search, if_neg hq] at hok
    cases hemb : r.embedder.embed (.inl query) with
    | error e => simp only [hemb] at hok; simp at hok
    | ok qemb =>
      simp only [hemb] at hok
      cases hraw : searchStore r.vector_store (qemb.headD []) topK with
      | error e2 => simp only [hraw] at hok; simp at hok
      | ok raw =>
        simp only [hraw] at hok
        injection hok with h2
        subst h2
        intro res hres
        rcases List.mem_map.1 hres with ⟨p, hp, hpe⟩
        have hdoc : p.1 ∈ r.vector_store.documents :=
          searchStore_doc_mem r.vector_store (qemb.headD []) topK raw hraw p hp
        subst hpe
        refine ⟨hdoc, ?_, ?_⟩
        · simp [hmd]
        · intro j hj hget
          exact indexOf_le_of_get _ _ j hj hget

section

attribute [local semireducible] Rat.add Rat.mul Rat.inv Rat.sub

/-- Witness for `metadata_by_content`: two stored chunks share the text
`"x"`; the search hit coming from vector position 1 is also tagged with the
metadata of position 0 (the first occurrence by content). -/
theorem metadata_by_content_witness :
    let m0 : ChunkMeta :=
      { source_file := "a.txt", file_path := "d/a.txt", chunk_index := 0 }
    let m1 : ChunkMeta :=
      { source_file := "a.txt", file_path := "d/a.txt", chunk_index := 1 }
    let r : OnlineRetriever :=
      { vector_store :=
          { dimension := some 1, indexDim := some 1,
            vectors := [[0], [1]], documents := ["x", "x"] },
        metadata := [m0, m1],
        embedder := { maxFeatures := 1000, fitted := true, vocab := ["a"] } }
    let results : List SearchResult :=
      [{ document := "x", score := 1, metadata := some m0 },
       { document := "x", score := 1 / 2, metadata := some m0 }]
    r.metadata ≠ [] ∧
    OnlineRetriever.search r "a" 5 true = .ok results ∧
    (∀ res ∈ results,
      res.document ∈ r.vector_store.documents ∧
      res.metadata =
        (if h : List.indexOf res.document r.vector_store.documents
            < r.metadata.length then
          some (r.metadata.get
            ⟨List.indexOf res.document r.vector_store.documents, h⟩)
        else none) ∧
      (∀ j (hj : j < r.vector_store.documents.length),
        r.vector_store.documents.get ⟨j, hj⟩ = res.document →
        List.indexOf res.document r.vector_store.documents ≤ j)) := by
  intro m0 m1 r results
  exact ⟨by decide, by decide,
    metadata_by_content r "a" 5 results (by decide) (by decide)⟩

end

/-- C10: an empty or whitespace-only query makes `OnlineRetriever.search`
return the empty list immediately, for every retriever state - in particular
an unfit embedder or an empty index cannot raise on such a query, since
neither is consulted. -/
theorem empty_query_short_circuit (r : OnlineRetriever) (query : String)
    (topK : Nat) (returnMetadata : Bool) (hq : pyStrip query.toList = []) :
    OnlineRetriever.search r query topK returnMetadata = .ok [] := by
  rw [OnlineRetriever.search, if_pos hq]

/-- Witness for `empty_query_short_circuit`: a whitespace query against a
retriever whose embedder is unfit and whose store is empty. -/
theorem empty_query_short_circuit_witness :
    (pyStrip "  ".toList = []) ∧
    OnlineRetriever.search
      { vector_store := FaissVectorStore.init none, metadata := [],
        embedder := SimpleEmbedder.mk0 1000 } "  " 5 true = .ok [] :=
  ⟨by decide, empty_query_short_circuit _ "  " 5 true (by decide)⟩

end Agent
